/-
Verification of the contact-map core of Metagenomic-DeepFRI.

Shallow embedding of:
  * the dense/sparse contact-map builders
    (src/mDeepFRI/CPP_lib/atoms_io.pyx `load_contact_map`,
     src/mDeepFRI/CPP_lib/load_contact_maps.cpp),
  * the alignment remapper
    (src/mDeepFRI/contact_map_utils.pyx `align_contact_map`),
  * the binary structure store (src/CPP_lib/atoms_file_io.h),
  * the triangular bit-packing (src/CPP_lib/bit_set.hpp and the
    `ContactMapper::GenerateContactMap` variant).

Float32 coordinate values are embedded as exact rationals (the claims under
verification are about comparison logic, which is exact for any values the
buffers hold); 32-bit on-disk words are embedded as naturals below 2^32.
-/
import Mathlib

/-! ## Distance kernel and contact-map builder (atoms_io.pyx) -/

/-- Flat coordinate-buffer access `positions[k]`; out-of-range reads (which the
source never performs on well-formed structures) default to `0`. -/
def coord (positions : List ℚ) (k : ℕ) : ℚ := positions.getD k 0

/-- Squared Euclidean distance between atoms `i` and `j` of a flat
`x0,y0,z0,x1,y1,z1,...` buffer, as computed by `distance` in
`mDeepFRI/CPP_lib/atoms_io.pyx` (lines 81-93): `x*x + y*y + z*z` of the
componentwise differences. -/
def sq_distance (positions : List ℚ) (i j : ℕ) : ℚ :=
  (coord positions (i * 3) - coord positions (j * 3)) ^ 2
    + (coord positions (i * 3 + 1) - coord positions (j * 3 + 1)) ^ 2
    + (coord positions (i * 3 + 2) - coord positions (j * 3 + 2)) ^ 2

/-- Atom-index range of residue `g`: `[groups[g], groups[g+1])`, the bounds of
the atom loops in `load_contact_map`. -/
def atomRange (groups : List ℕ) (g : ℕ) : List ℕ :=
  List.range' (groups.getD g 0) (groups.getD (g + 1) 0 - groups.getD g 0)

/-- Group-level connectivity scan of `load_contact_map`
(atoms_io.pyx lines 121-133): some atom pair of the two residues has squared
distance at most `threshold_sq`.  The source's `break` once `connected` is set
only short-circuits the scan; the computed boolean is this disjunction. -/
def groupConnected (positions : List ℚ) (groups : List ℕ) (threshold_sq : ℚ)
    (a b : ℕ) : Bool :=
  (atomRange groups a).any fun ia =>
    (atomRange groups b).any fun ib =>
      decide (sq_distance positions ia ib ≤ threshold_sq)

/-- Dense residue contact map built by `load_contact_map` in
`mDeepFRI/CPP_lib/atoms_io.pyx` (lines 97-137): side `groups.length - 1`
(= `chain_length` returned by `load_atoms_file`), diagonal filled true, and for
each pair `a < b` the cells `(a,b)` and `(b,a)` set true exactly when the
groups are connected under `threshold_sq = threshold * threshold`. -/
def load_contact_map (positions : List ℚ) (groups : List ℕ) (threshold : ℚ) :
    ℕ × (ℕ → ℕ → Bool) :=
  (groups.length - 1,
   fun i j =>
     if i = j then true
     else if i < j then groupConnected positions groups (threshold * threshold) i j
     else groupConnected positions groups (threshold * threshold) j i)

theorem mem_atomRange (groups : List ℕ) (g ia : ℕ) :
    ia ∈ atomRange groups g ↔
      groups.getD g 0 ≤ ia ∧ ia < groups.getD (g + 1) 0 := by
  unfold atomRange
  rw [List.mem_range'_1]
  omega

/-- C1: for every structure and every threshold `t > 0`, the builder marks an
ordered residue pair `(a, b)`, `a < b`, as connected iff some atom of group `a`
and some atom of group `b` are at squared Euclidean distance at most `t * t` —
equivalently (second conjunct) at Euclidean distance at most `t`. -/
theorem builder_marks_pair_iff_close_atoms
    (positions : List ℚ) (groups : List ℕ) (t : ℚ) (a b : ℕ)
    (ht : 0 < t) (hab : a < b) (hb : b < groups.length - 1) :
    ((load_contact_map positions groups t).2 a b = true ↔
      ∃ ia, (groups.getD a 0 ≤ ia ∧ ia < groups.getD (a + 1) 0) ∧
        ∃ ib, (groups.getD b 0 ≤ ib ∧ ib < groups.getD (b + 1) 0) ∧
          sq_distance positions ia ib ≤ t * t) ∧
    ((load_contact_map positions groups t).2 a b = true ↔
      ∃ ia, (groups.getD a 0 ≤ ia ∧ ia < groups.getD (a + 1) 0) ∧
        ∃ ib, (groups.getD b 0 ≤ ib ∧ ib < groups.getD (b + 1) 0) ∧
          Real.sqrt ((sq_distance positions ia ib : ℚ) : ℝ) ≤ ((t : ℚ) : ℝ)) := by
  have hcell : (load_contact_map positions groups t).2 a b
      = groupConnected positions groups (t * t) a b := by
    simp only [load_contact_map]
    rw [if_neg (Nat.ne_of_lt hab), if_pos hab]
  have hmain : (load_contact_map positions groups t).2 a b = true ↔
      ∃ ia, (groups.getD a 0 ≤ ia ∧ ia < groups.getD (a + 1) 0) ∧
        ∃ ib, (groups.getD b 0 ≤ ib ∧ ib < groups.getD (b + 1) 0) ∧
          sq_distance positions ia ib ≤ t * t := by
    rw [hcell]
    simp only [groupConnected, List.any_eq_true, decide_eq_true_eq, mem_atomRange]
  refine ⟨hmain, hmain.trans ?_⟩
  have ht' : (0 : ℝ) ≤ ((t : ℚ) : ℝ) := by exact_mod_cast ht.le
  have hdist : ∀ ia ib : ℕ,
      sq_distance positions ia ib ≤ t * t ↔
        Real.sqrt ((sq_distance positions ia ib : ℚ) : ℝ) ≤ ((t : ℚ) : ℝ) := by
    intro ia ib
    rw [Real.sqrt_le_left ht',
      show ((t : ℚ) : ℝ) ^ 2 = ((t * t : ℚ) : ℝ) by push_cast; ring]
    exact (Rat.cast_le (K := ℝ)).symm
  constructor
  · rintro ⟨ia, hia, ib, hib, h⟩
    exact ⟨ia, hia, ib, hib, (hdist ia ib).mp h⟩
  · rintro ⟨ia, hia, ib, hib, h⟩
    exact ⟨ia, hia, ib, hib, (hdist ia ib).mpr h⟩

/-- Witness for C1: a two-residue structure with single atoms at `(0,0,0)` and
`(1,0,0)` and threshold `2`. -/
theorem builder_marks_pair_iff_close_atoms_witness :
    (0 : ℚ) < 2 ∧ 0 < 1 ∧ 1 < [0, 1, 2].length - 1 ∧
    (((load_contact_map [0, 0, 0, 1, 0, 0] [0, 1, 2] 2).2 0 1 = true ↔
      ∃ ia, ([0, 1, 2].getD 0 0 ≤ ia ∧ ia < [0, 1, 2].getD 1 0) ∧
        ∃ ib, ([0, 1, 2].getD 1 0 ≤ ib ∧ ib < [0, 1, 2].getD 2 0) ∧
          sq_distance [0, 0, 0, 1, 0, 0] ia ib ≤ 2 * 2) ∧
    ((load_contact_map [0, 0, 0, 1, 0, 0] [0, 1, 2] 2).2 0 1 = true ↔
      ∃ ia, ([0, 1, 2].getD 0 0 ≤ ia ∧ ia < [0, 1, 2].getD 1 0) ∧
        ∃ ib, ([0, 1, 2].getD 1 0 ≤ ib ∧ ib < [0, 1, 2].getD 2 0) ∧
          Real.sqrt ((sq_distance [0, 0, 0, 1, 0, 0] ia ib : ℚ) : ℝ) ≤ ((2 : ℚ) : ℝ))) :=
  ⟨by norm_num, by decide, by decide,
    builder_marks_pair_iff_close_atoms [0, 0, 0, 1, 0, 0] [0, 1, 2] 2 0 1
      (by norm_num) (by decide) (by decide)⟩

/-! ## Alignment remapper (contact_map_utils.pyx `align_contact_map`) -/

/-- Gap character of alignment strings (ASCII 45 in the source). -/
def gapChar : Char := '-'

/-- Character the column loop reads from the target buffer: its first remaining
character, or the terminating NUL of the underlying C string once the column
index passes the target's end (the source indexes `t_ptr[i]` with no length
check). -/
def headByte (t : List Char) : Char := t.headD (Char.ofNat 0)

/-- State of the first pass of `align_contact_map`: the target-to-query index
map, the `sparse_query_contacts` vector (as ordered pairs), and `query_idx`.
`target_idx` is `tqMap.length` and is not tracked separately. -/
structure AlignState where
  tqMap : List ℤ
  pairs : List (ℤ × ℤ)
  qidx : ℕ
  deriving Repr, DecidableEq

/-- Generated candidate contacts for one insertion column at query index `q`:
`(q+j, q)` then `(q-j, q)` pushed for `j = 1..generated_contacts`
(contact_map_utils.pyx lines 123-129). -/
def genPairs (generated_contacts q : ℕ) : List (ℤ × ℤ) :=
  (List.range generated_contacts).flatMap fun j =>
    [((q : ℤ) + ((j : ℤ) + 1), (q : ℤ)), ((q : ℤ) - ((j : ℤ) + 1), (q : ℤ))]

/-- One column of the first pass of `align_contact_map`
(contact_map_utils.pyx lines 113-136). -/
def alignStep (generated_contacts : ℕ) (s : AlignState) (qc tc : Char) :
    AlignState :=
  if qc = gapChar then
    { s with tqMap := s.tqMap ++ [-1] }
  else if tc = gapChar then
    { s with pairs := s.pairs ++ genPairs generated_contacts s.qidx,
             qidx := s.qidx + 1 }
  else
    { s with tqMap := s.tqMap ++ [(s.qidx : ℤ)], qidx := s.qidx + 1 }

/-- First pass over the alignment columns; the query string drives the loop and
the target string is consumed in lockstep (the source indexes both by the same
column counter). -/
def alignPass (generated_contacts : ℕ) :
    List Char → List Char → AlignState → AlignState
  | [], _, s => s
  | qc :: qrest, t, s =>
      alignPass generated_contacts qrest t.tail
        (alignStep generated_contacts s qc (headByte t))

/-- Translation of the sparse target contacts
(contact_map_utils.pyx lines 145-157): a row `(i, j)` contributes iff both
indices pass the `size` bound (the source compares `int` with `size_t`, so a
negative index converts to a huge unsigned value and fails) and both mapped
residues differ from `-1`. -/
def translateRow (m : List ℤ) (r : ℤ × ℤ) : Option (ℤ × ℤ) :=
  if 0 ≤ r.1 ∧ r.1 < (m.length : ℤ) ∧ 0 ≤ r.2 ∧ r.2 < (m.length : ℤ) then
    if m.getD r.1.toNat 0 ≠ -1 ∧ m.getD r.2.toNat 0 ≠ -1 then
      some (m.getD r.1.toNat 0, m.getD r.2.toNat 0)
    else none
  else none

/-- Second pass over all sparse target rows. -/
def translatePairs (m : List ℤ) (rows : List (ℤ × ℤ)) : List (ℤ × ℤ) :=
  rows.filterMap (translateRow m)

/-- All candidate pairs pushed onto `sparse_query_contacts`: the generated
pairs from the first pass followed by the translated target contacts. -/
def candidatePairs (q t : List Char) (rows : List (ℤ × ℤ))
    (generated_contacts : ℕ) : List (ℤ × ℤ) :=
  (alignPass generated_contacts q t ⟨[], [], 0⟩).pairs ++
    translatePairs (alignPass generated_contacts q t ⟨[], [], 0⟩).tqMap rows

/-- Final query length: `query_idx` after the first pass. -/
def queryLen (q t : List Char) (generated_contacts : ℕ) : ℕ :=
  (alignPass generated_contacts q t ⟨[], [], 0⟩).qidx

/-- Output of `align_contact_map` (contact_map_utils.pyx lines 159-180): the
matrix side `query_idx` and the cell function — diagonal true, and an
off-diagonal cell true iff some candidate pair with both coordinates inside
`[0, query_idx)` writes it (symmetrically). -/
def align_contact_map (q t : List Char) (rows : List (ℤ × ℤ))
    (generated_contacts : ℕ) : ℕ × (ℕ → ℕ → Bool) :=
  (queryLen q t generated_contacts, fun x y =>
    decide (x = y) ||
      (candidatePairs q t rows generated_contacts).any fun p =>
        decide (0 ≤ p.1) &&
        decide (p.1 < ((queryLen q t generated_contacts : ℕ) : ℤ)) &&
        decide (0 ≤ p.2) &&
        decide (p.2 < ((queryLen q t generated_contacts : ℕ) : ℤ)) &&
        ((decide (p.1 = (x : ℤ)) && decide (p.2 = (y : ℤ))) ||
         (decide (p.1 = (y : ℤ)) && decide (p.2 = (x : ℤ)))))

theorem genPairs_length (gc q : ℕ) : (genPairs gc q).length = 2 * gc := by
  induction gc with
  | zero => rfl
  | succ n ih =>
      unfold genPairs at ih ⊢
      rw [List.range_succ, List.flatMap_append, List.length_append, ih]
      simp
      omega

theorem mem_genPairs (gc q : ℕ) (pr : ℤ × ℤ) :
    pr ∈ genPairs gc q ↔
      ∃ j : ℕ, 1 ≤ j ∧ j ≤ gc ∧
        (pr = ((q : ℤ) - (j : ℤ), (q : ℤ)) ∨
         pr = ((q : ℤ) + (j : ℤ), (q : ℤ))) := by
  unfold genPairs
  simp only [List.mem_flatMap, List.mem_range, List.mem_cons,
    List.mem_singleton, List.not_mem_nil, or_false]
  constructor
  · rintro ⟨j, hj, h | h⟩
    · exact ⟨j + 1, by omega, by omega, Or.inr (by rw [h]; push_cast; ring_nf)⟩
    · exact ⟨j + 1, by omega, by omega, Or.inl (by rw [h]; push_cast; ring_nf)⟩
  · rintro ⟨j, hj1, hjgc, h | h⟩
    · exact ⟨j - 1, by omega, Or.inr (by rw [h]; congr 1; push_cast; omega)⟩
    · exact ⟨j - 1, by omega, Or.inl (by rw [h]; congr 1; push_cast; omega)⟩

/-- C2: at an insertion column (query has a residue, target a gap) the
remapper appends exactly the candidate pairs `(q-j, q)` and `(q+j, q)` for
every `j` from `1` to `generated_contacts` inclusive — `2*generated_contacts`
pairs — and increments the query index only. -/
theorem remapper_insertion_generates_pairs
    (gc : ℕ) (s : AlignState) (qc tc : Char)
    (hq : qc ≠ gapChar) (ht : tc = gapChar) :
    (alignStep gc s qc tc).pairs = s.pairs ++ genPairs gc s.qidx ∧
    (alignStep gc s qc tc).tqMap = s.tqMap ∧
    (alignStep gc s qc tc).qidx = s.qidx + 1 ∧
    (genPairs gc s.qidx).length = 2 * gc ∧
    (∀ pr : ℤ × ℤ, pr ∈ genPairs gc s.qidx ↔
      ∃ j : ℕ, 1 ≤ j ∧ j ≤ gc ∧
        (pr = ((s.qidx : ℤ) - (j : ℤ), (s.qidx : ℤ)) ∨
         pr = ((s.qidx : ℤ) + (j : ℤ), (s.qidx : ℤ)))) := by
  refine ⟨?_, ?_, ?_, genPairs_length gc s.qidx, mem_genPairs gc s.qidx⟩ <;>
    simp [alignStep, hq, ht]

/-- Witness for C2: an insertion column `qc = 'C'`, `tc = '-'`, with
`generated_contacts = 2` and query index `3`. -/
theorem remapper_insertion_generates_pairs_witness :
    ('C' ≠ gapChar) ∧ ('-' = gapChar) ∧
    ((alignStep 2 ⟨[0, 1], [], 3⟩ 'C' '-').pairs = [] ++ genPairs 2 3 ∧
     (alignStep 2 ⟨[0, 1], [], 3⟩ 'C' '-').tqMap = [0, 1] ∧
     (alignStep 2 ⟨[0, 1], [], 3⟩ 'C' '-').qidx = 3 + 1 ∧
     (genPairs 2 3).length = 2 * 2 ∧
     (∀ pr : ℤ × ℤ, pr ∈ genPairs 2 3 ↔
       ∃ j : ℕ, 1 ≤ j ∧ j ≤ 2 ∧
         (pr = ((3 : ℤ) - (j : ℤ), (3 : ℤ)) ∨
          pr = ((3 : ℤ) + (j : ℤ), (3 : ℤ))))) :=
  ⟨by decide, by decide,
    remapper_insertion_generates_pairs 2 ⟨[0, 1], [], 3⟩ 'C' '-'
      (by decide) (by decide)⟩

/-- Target-to-query index map built by the first pass; its length is the
number of target residues implied by the alignment (one entry is pushed per
column in which the target has a residue). -/
def targetToQueryMap (q t : List Char) (generated_contacts : ℕ) : List ℤ :=
  (alignPass generated_contacts q t ⟨[], [], 0⟩).tqMap

/-- C4: in the remapper's output matrix no true cell originates from a
candidate pair with a coordinate outside `[0, query_index)`: an off-diagonal
cell is true exactly when some candidate pair with BOTH coordinates in range
writes it, so out-of-range pairs are filtered and contribute nothing. -/
theorem remapper_output_only_from_in_range_pairs
    (q t : List Char) (rows : List (ℤ × ℤ)) (gc : ℕ) (x y : ℕ)
    (hx : x < (align_contact_map q t rows gc).1)
    (hy : y < (align_contact_map q t rows gc).1) :
    (align_contact_map q t rows gc).2 x y = true ↔
      x = y ∨ ∃ p, p ∈ candidatePairs q t rows gc ∧
        (0 ≤ p.1 ∧ p.1 < ((align_contact_map q t rows gc).1 : ℤ)) ∧
        (0 ≤ p.2 ∧ p.2 < ((align_contact_map q t rows gc).1 : ℤ)) ∧
        ((p.1 = (x : ℤ) ∧ p.2 = (y : ℤ)) ∨ (p.1 = (y : ℤ) ∧ p.2 = (x : ℤ))) := by
  simp only [align_contact_map, Bool.or_eq_true, decide_eq_true_eq,
    List.any_eq_true, Bool.and_eq_true]
  constructor
  · rintro (h | ⟨p, hp, hb, hhit⟩)
    · exact Or.inl h
    · exact Or.inr ⟨p, hp, by tauto, by tauto, hhit⟩
  · rintro (h | ⟨p, hp, h1, h2, hhit⟩)
    · exact Or.inl h
    · exact Or.inr ⟨p, hp, by tauto, hhit⟩

/-- Witness for C4 on the scenario alignment `AC-T` / `A-GT` with target
contacts `{(0,2)}` and one generated contact. -/
theorem remapper_output_only_from_in_range_pairs_witness :
    (0 < (align_contact_map ['A', 'C', '-', 'T'] ['A', '-', 'G', 'T'] [(0, 2)] 1).1 ∧
     2 < (align_contact_map ['A', 'C', '-', 'T'] ['A', '-', 'G', 'T'] [(0, 2)] 1).1) ∧
    ((align_contact_map ['A', 'C', '-', 'T'] ['A', '-', 'G', 'T'] [(0, 2)] 1).2 0 2 = true ↔
      (0 : ℕ) = 2 ∨ ∃ p, p ∈ candidatePairs ['A', 'C', '-', 'T'] ['A', '-', 'G', 'T'] [(0, 2)] 1 ∧
        (0 ≤ p.1 ∧ p.1 < ((align_contact_map ['A', 'C', '-', 'T'] ['A', '-', 'G', 'T'] [(0, 2)] 1).1 : ℤ)) ∧
        (0 ≤ p.2 ∧ p.2 < ((align_contact_map ['A', 'C', '-', 'T'] ['A', '-', 'G', 'T'] [(0, 2)] 1).1 : ℤ)) ∧
        ((p.1 = ((0 : ℕ) : ℤ) ∧ p.2 = ((2 : ℕ) : ℤ)) ∨
         (p.1 = ((2 : ℕ) : ℤ) ∧ p.2 = ((0 : ℕ) : ℤ)))) :=
  ⟨⟨by decide, by decide⟩,
    remapper_output_only_from_in_range_pairs ['A', 'C', '-', 'T'] ['A', '-', 'G', 'T']
      [(0, 2)] 1 0 2 (by decide) (by decide)⟩

/-- C10: a sparse target row with an index at or beyond the length of the
target-to-query map is silently skipped: removing it from the input leaves the
remapper's output (dimension and every cell) unchanged, and the call still
returns a map rather than failing. -/
theorem remapper_skips_out_of_range_rows
    (q t : List Char) (rows1 rows2 : List (ℤ × ℤ)) (i j : ℤ) (gc : ℕ)
    (h : ((targetToQueryMap q t gc).length : ℤ) ≤ i ∨
         ((targetToQueryMap q t gc).length : ℤ) ≤ j) :
    align_contact_map q t (rows1 ++ (i, j) :: rows2) gc
      = align_contact_map q t (rows1 ++ rows2) gc := by
  have hnone : translateRow (alignPass gc q t ⟨[], [], 0⟩).tqMap (i, j) = none := by
    have h' : ¬(0 ≤ i ∧ i < (((alignPass gc q t ⟨[], [], 0⟩).tqMap.length : ℕ) : ℤ) ∧
        0 ≤ j ∧ j < (((alignPass gc q t ⟨[], [], 0⟩).tqMap.length : ℕ) : ℤ)) := by
      have h'' := h
      unfold targetToQueryMap at h''
      omega
    unfold translateRow
    exact if_neg h'
  have hm : translatePairs (alignPass gc q t ⟨[], [], 0⟩).tqMap (rows1 ++ (i, j) :: rows2)
      = translatePairs (alignPass gc q t ⟨[], [], 0⟩).tqMap (rows1 ++ rows2) := by
    unfold translatePairs
    rw [List.filterMap_append, List.filterMap_append, List.filterMap_cons_none hnone]
  simp only [align_contact_map, candidatePairs, queryLen]
  rw [hm]

/-- Witness for C10: alignment `AB`/`AB` (two target residues), dropping the
out-of-range row `(5, 0)`. -/
theorem remapper_skips_out_of_range_rows_witness :
    (((targetToQueryMap ['A', 'B'] ['A', 'B'] 1).length : ℤ) ≤ 5 ∨
     ((targetToQueryMap ['A', 'B'] ['A', 'B'] 1).length : ℤ) ≤ 0) ∧
    align_contact_map ['A', 'B'] ['A', 'B'] ([(0, 1)] ++ (5, 0) :: []) 1
      = align_contact_map ['A', 'B'] ['A', 'B'] ([(0, 1)] ++ []) 1 :=
  ⟨Or.inl (by decide),
    remapper_skips_out_of_range_rows ['A', 'B'] ['A', 'B'] [(0, 1)] [] 5 0 1
      (Or.inl (by decide))⟩

/-- C5 (code bug in the source): with `query_alignment = "AC"` and
`target_alignment = "A"` — lengths 2 and 1 — the remapper performs the
remapping pass anyway, reading the target's terminating NUL byte as a residue
at column 1, and returns a 2-by-2 matrix; no `InvalidAlignment` rejection
exists anywhere in `align_contact_map`. -/
theorem remapper_accepts_unequal_length_alignments :
    (align_contact_map ['A', 'C'] ['A'] [] 2).1 = 2 ∧
    (align_contact_map ['A', 'C'] ['A'] [] 2).2 0 0 = true ∧
    (align_contact_map ['A', 'C'] ['A'] [] 2).2 0 1 = false := by
  decide

theorem alignPass_nogap (gc : ℕ) (q : List Char) (hq : gapChar ∉ q) :
    ∀ s : AlignState, alignPass gc q q s =
      ⟨s.tqMap ++ (List.range' s.qidx q.length).map (fun i : ℕ => (i : ℤ)),
       s.pairs, s.qidx + q.length⟩ := by
  induction q with
  | nil => intro s; simp [alignPass]
  | cons c rest ih =>
      intro s
      have hc : c ≠ gapChar := fun h => hq (h ▸ List.mem_cons_self c rest)
      have hrest : gapChar ∉ rest := fun h => hq (List.mem_cons_of_mem c h)
      show alignPass gc rest rest (alignStep gc s c (headByte (c :: rest))) = _
      rw [show headByte (c :: rest) = c from rfl]
      rw [show alignStep gc s c c
            = ⟨s.tqMap ++ [(s.qidx : ℤ)], s.pairs, s.qidx + 1⟩ by
          unfold alignStep
          rw [if_neg hc, if_neg hc]]
      rw [ih hrest ⟨s.tqMap ++ [(s.qidx : ℤ)], s.pairs, s.qidx + 1⟩]
      simp only [AlignState.mk.injEq, List.length_cons]
      refine ⟨?_, trivial, by omega⟩
      rw [List.append_assoc, List.range'_succ, List.map_cons,
        List.singleton_append]

theorem idMap_getD (k n i : ℕ) (h : i < n) :
    ((List.range' k n).map (fun j : ℕ => (j : ℤ))).getD i 0 = ((k + i : ℕ) : ℤ) := by
  induction n generalizing k i with
  | zero => omega
  | succ m ih =>
      rw [List.range'_succ, List.map_cons]
      cases i with
      | zero => simp
      | succ i' =>
          rw [List.getD_cons_succ, ih (k + 1) i' (by omega)]
          congr 1
          omega

theorem translateRow_identity (n : ℕ) (r : ℤ × ℤ) :
    translateRow ((List.range' 0 n).map (fun j : ℕ => (j : ℤ))) r
      = if 0 ≤ r.1 ∧ r.1 < (n : ℤ) ∧ 0 ≤ r.2 ∧ r.2 < (n : ℤ) then some r
        else none := by
  unfold translateRow
  rw [List.length_map, List.length_range']
  by_cases hc : 0 ≤ r.1 ∧ r.1 < (n : ℤ) ∧ 0 ≤ r.2 ∧ r.2 < (n : ℤ)
  · rw [if_pos hc, if_pos hc]
    have h1 : ((List.range' 0 n).map (fun j : ℕ => (j : ℤ))).getD r.1.toNat 0 = r.1 := by
      rw [idMap_getD 0 n r.1.toNat (by omega)]
      omega
    have h2 : ((List.range' 0 n).map (fun j : ℕ => (j : ℤ))).getD r.2.toNat 0 = r.2 := by
      rw [idMap_getD 0 n r.2.toNat (by omega)]
      omega
    rw [h1, h2, if_pos (by omega : r.1 ≠ -1 ∧ r.2 ≠ -1)]
  · rw [if_neg hc, if_neg hc]

/-- C3: when the query and target alignments are equal and gap-free, the
remapper returns exactly the dense map induced by the input sparse target map:
dimension equal to the alignment length, diagonal true, a cell `(x, y)` true
iff `x = y` or `(x, y)` or `(y, x)` is an input pair; no generated contacts
appear. -/
theorem remapper_identity_alignment (q : List Char) (rows : List (ℤ × ℤ))
    (gc : ℕ) (hq : gapChar ∉ q) :
    (align_contact_map q q rows gc).1 = q.length ∧
    ∀ x y : ℕ, x < q.length → y < q.length →
      ((align_contact_map q q rows gc).2 x y = true ↔
        x = y ∨ ((x : ℤ), (y : ℤ)) ∈ rows ∨ ((y : ℤ), (x : ℤ)) ∈ rows) := by
  have hpass := alignPass_nogap gc q hq ⟨[], [], 0⟩
  have hlen : queryLen q q gc = q.length := by
    unfold queryLen
    rw [hpass]
    simp
  have hm : (alignPass gc q q ⟨[], [], 0⟩).tqMap
      = (List.range' 0 q.length).map (fun j : ℕ => (j : ℤ)) := by
    rw [hpass]
    simp
  have hpairs : (alignPass gc q q ⟨[], [], 0⟩).pairs = [] := by
    rw [hpass]
  refine ⟨hlen, ?_⟩
  intro x y hx hy
  simp only [align_contact_map, candidatePairs, hpairs, hm, hlen,
    List.nil_append, Bool.or_eq_true, decide_eq_true_eq, List.any_eq_true,
    Bool.and_eq_true]
  constructor
  · rintro (h | ⟨p, hp, hb, hhit⟩)
    · exact Or.inl h
    · right
      obtain ⟨r, hr, hsome⟩ := List.mem_filterMap.mp hp
      rw [translateRow_identity] at hsome
      have hpr : p = r := by
        by_cases hc : 0 ≤ r.1 ∧ r.1 < ((q.length : ℕ) : ℤ) ∧ 0 ≤ r.2 ∧
            r.2 < ((q.length : ℕ) : ℤ)
        · rw [if_pos hc] at hsome
          exact (Option.some_inj.mp hsome).symm
        · rw [if_neg hc] at hsome
          cases hsome
      subst hpr
      rcases hhit with ⟨h1, h2⟩ | ⟨h1, h2⟩
      · left
        have : p = ((x : ℤ), (y : ℤ)) := Prod.ext h1 h2
        rwa [this] at hr
      · right
        have : p = ((y : ℤ), (x : ℤ)) := Prod.ext h1 h2
        rwa [this] at hr
  · rintro (h | h | h)
    · exact Or.inl h
    · refine Or.inr ⟨((x : ℤ), (y : ℤ)), ?_, by constructor <;> omega, Or.inl ⟨rfl, rfl⟩⟩
      refine List.mem_filterMap.mpr ⟨((x : ℤ), (y : ℤ)), h, ?_⟩
      rw [translateRow_identity]
      exact if_pos (by constructor <;> omega)
    · refine Or.inr ⟨((y : ℤ), (x : ℤ)), ?_, by constructor <;> omega, Or.inr ⟨rfl, rfl⟩⟩
      refine List.mem_filterMap.mpr ⟨((y : ℤ), (x : ℤ)), h, ?_⟩
      rw [translateRow_identity]
      exact if_pos (by constructor <;> omega)

/-- Witness for C3: identity alignment `ABC`/`ABC` with target contacts
`{(0,2)}`. -/
theorem remapper_identity_alignment_witness :
    gapChar ∉ ['A', 'B', 'C'] ∧
    ((align_contact_map ['A', 'B', 'C'] ['A', 'B', 'C'] [(0, 2)] 2).1 =
        ['A', 'B', 'C'].length ∧
     ∀ x y : ℕ, x < ['A', 'B', 'C'].length → y < ['A', 'B', 'C'].length →
       ((align_contact_map ['A', 'B', 'C'] ['A', 'B', 'C'] [(0, 2)] 2).2 x y = true ↔
         x = y ∨ ((x : ℤ), (y : ℤ)) ∈ [((0 : ℤ), (2 : ℤ))] ∨
           ((y : ℤ), (x : ℤ)) ∈ [((0 : ℤ), (2 : ℤ))])) :=
  ⟨by decide,
    remapper_identity_alignment ['A', 'B', 'C'] [(0, 2)] 2 (by decide)⟩

/-! ## Legacy C++ builder (mDeepFRI/CPP_lib/load_contact_maps.cpp) -/

/-- Truth of `Distance(array, i, j) <= threshold` in load_contact_maps.cpp
(lines 11-27).  The source takes component differences between buffer indices
`3*i + c` and `3*i + 3*j + c`, squares them into `xs, ys, zs`, and compares
`std::hypot(xs, ys, zs) = sqrt(xs^2 + ys^2 + zs^2)` against the raw threshold.
Since `hypot` is nonnegative and squaring is monotone on nonnegatives, that
comparison holds iff `0 <= t` and `xs^2 + ys^2 + zs^2 <= t^2`, which is the
exact square-root-free rendering used here. -/
def cppDistanceLE (positions : List ℚ) (i j : ℕ) (t : ℚ) : Bool :=
  decide (0 ≤ t ∧
    ((coord positions (i * 3) - coord positions (i * 3 + 3 * j)) ^ 2) ^ 2 +
    ((coord positions (i * 3 + 1) - coord positions (i * 3 + 1 + 3 * j)) ^ 2) ^ 2 +
    ((coord positions (i * 3 + 2) - coord positions (i * 3 + 2 + 3 * j)) ^ 2) ^ 2
      ≤ t ^ 2)

/-- Group connectivity scan shared by `LoadDenseContactMap` and
`LoadSparseContactMap` in load_contact_maps.cpp: some atom pair of the two
groups passes the legacy distance comparison. -/
def cppGroupConnected (positions : List ℚ) (groups : List ℕ) (t : ℚ)
    (a b : ℕ) : Bool :=
  (atomRange groups a).any fun ia =>
    (atomRange groups b).any fun ib => cppDistanceLE positions ia ib t

/-- `LoadDenseContactMap` (load_contact_maps.cpp lines 34-76): a square map of
side `chain_length`, diagonal true, cells `(a,b)` and `(b,a)` set for each
connected pair `a < b`. -/
def LoadDenseContactMap (positions : List ℚ) (groups : List ℕ) (t : ℚ) :
    ℕ × (ℕ → ℕ → Bool) :=
  (groups.length - 1,
   fun i j =>
     if i = j then true
     else if i < j then cppGroupConnected positions groups t i j
     else cppGroupConnected positions groups t j i)

/-- `LoadSparseContactMap` (load_contact_maps.cpp lines 78-123): the pairs
`(group_a, group_b)`, `group_a < group_b`, collected in loop order for every
connected pair. -/
def LoadSparseContactMap (positions : List ℚ) (groups : List ℕ) (t : ℚ) :
    List (ℕ × ℕ) :=
  (List.range (groups.length - 1)).flatMap fun a =>
    (List.range' (a + 1) (groups.length - 1 - (a + 1))).filterMap fun b =>
      if cppGroupConnected positions groups t a b then some (a, b) else none

theorem mem_LoadSparseContactMap (positions : List ℚ) (groups : List ℕ)
    (t : ℚ) (a b : ℕ) :
    (a, b) ∈ LoadSparseContactMap positions groups t ↔
      a < b ∧ b < groups.length - 1 ∧
        cppGroupConnected positions groups t a b = true := by
  unfold LoadSparseContactMap
  simp only [List.mem_flatMap, List.mem_range, List.mem_filterMap,
    List.mem_range'_1, Option.ite_none_right_eq_some, Option.some_inj,
    Prod.mk.injEq]
  constructor
  · rintro ⟨a', ha', b', ⟨hb1, hb2⟩, hconn, ha, hb⟩
    subst ha
    subst hb
    exact ⟨by omega, by omega, hconn⟩
  · rintro ⟨hab, hbn, hconn⟩
    exact ⟨a, by omega, b, ⟨by omega, by omega⟩, hconn, rfl, rfl⟩

/-- C8: for the same structure and threshold, the sparse and dense maps of
load_contact_maps.cpp encode the same relation: `(i, j)` with `i < j` is in
the sparse collection iff the dense cell `(i, j)` is true (first conjunct),
and the dense map is exactly the sparse pairs plus the true diagonal plus the
mirrored lower triangle (second conjunct). -/
theorem sparse_dense_same_relation (positions : List ℚ) (groups : List ℕ)
    (t : ℚ) :
    (∀ i j : ℕ, i < j → j < (LoadDenseContactMap positions groups t).1 →
      ((i, j) ∈ LoadSparseContactMap positions groups t ↔
        (LoadDenseContactMap positions groups t).2 i j = true)) ∧
    (∀ i j : ℕ, i < (LoadDenseContactMap positions groups t).1 →
      j < (LoadDenseContactMap positions groups t).1 →
      ((LoadDenseContactMap positions groups t).2 i j = true ↔
        i = j ∨ (i, j) ∈ LoadSparseContactMap positions groups t ∨
          (j, i) ∈ LoadSparseContactMap positions groups t)) := by
  have hcell : ∀ i j : ℕ, i < j →
      (LoadDenseContactMap positions groups t).2 i j
        = cppGroupConnected positions groups t i j := by
    intro i j hij
    simp only [LoadDenseContactMap]
    rw [if_neg (Nat.ne_of_lt hij), if_pos hij]
  constructor
  · intro i j hij hj
    rw [hcell i j hij, mem_LoadSparseContactMap]
    have hn : (LoadDenseContactMap positions groups t).1 = groups.length - 1 := rfl
    rw [hn] at hj
    constructor
    · rintro ⟨_, _, h⟩
      exact h
    · intro h
      exact ⟨hij, by omega, h⟩
  · intro i j hi hj
    have hn : (LoadDenseContactMap positions groups t).1 = groups.length - 1 := rfl
    rw [hn] at hi hj
    rcases Nat.lt_trichotomy i j with h | h | h
    · rw [hcell i j h, mem_LoadSparseContactMap, mem_LoadSparseContactMap]
      constructor
      · intro hc
        exact Or.inr (Or.inl ⟨h, by omega, hc⟩)
      · rintro (he | ⟨_, _, hc⟩ | ⟨hji, _, _⟩)
        · omega
        · exact hc
        · omega
    · subst h
      refine ⟨fun _ => Or.inl rfl, fun _ => ?_⟩
      simp [LoadDenseContactMap]
    · have hji : (LoadDenseContactMap positions groups t).2 i j
          = cppGroupConnected positions groups t j i := by
        simp only [LoadDenseContactMap]
        rw [if_neg (by omega : ¬i = j), if_neg (by omega : ¬i < j)]
      rw [hji, mem_LoadSparseContactMap, mem_LoadSparseContactMap]
      constructor
      · intro hc
        exact Or.inr (Or.inr ⟨h, by omega, hc⟩)
      · rintro (he | ⟨hij, _, _⟩ | ⟨_, _, hc⟩)
        · omega
        · omega
        · exact hc

/-- Witness for C8: the two-residue structure of the C1 witness, threshold
`2`, cells `(0, 1)` of the legacy sparse and dense maps. -/
theorem sparse_dense_same_relation_witness :
    (0 < 1 ∧ 1 < (LoadDenseContactMap [0, 0, 0, 1, 0, 0] [0, 1, 2] 2).1 ∧
      ((0, 1) ∈ LoadSparseContactMap [0, 0, 0, 1, 0, 0] [0, 1, 2] 2 ↔
        (LoadDenseContactMap [0, 0, 0, 1, 0, 0] [0, 1, 2] 2).2 0 1 = true)) ∧
    ((LoadDenseContactMap [0, 0, 0, 1, 0, 0] [0, 1, 2] 2).2 0 1 = true ↔
      (0 : ℕ) = 1 ∨ (0, 1) ∈ LoadSparseContactMap [0, 0, 0, 1, 0, 0] [0, 1, 2] 2 ∨
        (1, 0) ∈ LoadSparseContactMap [0, 0, 0, 1, 0, 0] [0, 1, 2] 2) :=
  ⟨⟨by decide, by decide,
      (sparse_dense_same_relation [0, 0, 0, 1, 0, 0] [0, 1, 2] 2).1 0 1
        (by decide) (by decide)⟩,
    (sparse_dense_same_relation [0, 0, 0, 1, 0, 0] [0, 1, 2] 2).2 0 1
      (by decide) (by decide)⟩

/-- C6: every dense contact map produced by a builder (`load_contact_map` in
atoms_io.pyx, `LoadDenseContactMap` in load_contact_maps.cpp) or by the
remapper (`align_contact_map`) is symmetric, and every diagonal cell is
true. -/
theorem produced_maps_symmetric_with_true_diagonal :
    (∀ (positions : List ℚ) (groups : List ℕ) (t : ℚ) (i j : ℕ),
      (load_contact_map positions groups t).2 i j
        = (load_contact_map positions groups t).2 j i ∧
      (load_contact_map positions groups t).2 i i = true) ∧
    (∀ (positions : List ℚ) (groups : List ℕ) (t : ℚ) (i j : ℕ),
      (LoadDenseContactMap positions groups t).2 i j
        = (LoadDenseContactMap positions groups t).2 j i ∧
      (LoadDenseContactMap positions groups t).2 i i = true) ∧
    (∀ (q tgt : List Char) (rows : List (ℤ × ℤ)) (gc x y : ℕ),
      (align_contact_map q tgt rows gc).2 x y
        = (align_contact_map q tgt rows gc).2 y x ∧
      (align_contact_map q tgt rows gc).2 x x = true) := by
  refine ⟨?_, ?_, ?_⟩
  · intro positions groups t i j
    constructor
    · simp only [load_contact_map]
      split_ifs <;> first | rfl | omega
    · simp [load_contact_map]
  · intro positions groups t i j
    constructor
    · simp only [LoadDenseContactMap]
      split_ifs <;> first | rfl | omega
    · simp [LoadDenseContactMap]
  · intro q tgt rows gc x y
    constructor
    · rw [Bool.eq_iff_iff]
      simp only [align_contact_map, Bool.or_eq_true, decide_eq_true_eq,
        List.any_eq_true, Bool.and_eq_true]
      constructor
      · rintro (h | ⟨p, hp, hb, hhit⟩)
        · exact Or.inl h.symm
        · exact Or.inr ⟨p, hp, hb, hhit.symm⟩
      · rintro (h | ⟨p, hp, hb, hhit⟩)
        · exact Or.inl h.symm
        · exact Or.inr ⟨p, hp, hb, hhit.symm⟩
    · simp [align_contact_map]

/-! ## Structure store (src/CPP_lib/atoms_file_io.h) -/

/-- Little-endian byte serialization of one 32-bit word (each `writer.write`
call in the source emits 4 bytes). -/
def u32Bytes (v : ℕ) : List ℕ :=
  [v % 256, v / 256 % 256, v / 65536 % 256, v / 16777216 % 256]

/-- `SaveAtomsFile` (atoms_file_io.h lines 16-27): writes the boundary count
`chain_length`, the `chain_length` boundary words, then `atom_count * 3`
coordinate words, where `atom_count = group_indexes[chain_length - 1]`.
Coordinates are carried as their 32-bit patterns (bit-exact). -/
def SaveAtomsFile (positions groups : List ℕ) : List ℕ :=
  u32Bytes groups.length ++ groups.flatMap u32Bytes ++
    (positions.take (groups.getD (groups.length - 1) 0 * 3)).flatMap u32Bytes

/-- Reads one little-endian 32-bit word from the byte stream. -/
def readWord : List ℕ → Option (ℕ × List ℕ)
  | b0 :: b1 :: b2 :: b3 :: rest =>
      some (b0 + 256 * b1 + 65536 * b2 + 16777216 * b3, rest)
  | _ => none

/-- Reads `k` consecutive words. -/
def readWords : ℕ → List ℕ → Option (List ℕ × List ℕ)
  | 0, bytes => some ([], bytes)
  | k + 1, bytes => do
      let (w, rest) ← readWord bytes
      let (ws, rest') ← readWords k rest
      pure (w :: ws, rest')

/-- `LoadAtomsFile` (atoms_file_io.h lines 30-47): reads the count, the
boundary words, decrements the count to the residue count, takes `atom_count`
from the trailing boundary and reads `atom_count * 3` coordinate words.
A truncated stream yields `none` (the C++ reader would consume undefined
bytes there; the round-trip claim never reaches that case). -/
def LoadAtomsFile (bytes : List ℕ) : Option (ℕ × List ℕ × List ℕ) := do
  let (cnt, r1) ← readWord bytes
  let (groups, r2) ← readWords cnt r1
  let chain := cnt - 1
  let (positions, _) ← readWords (groups.getD chain 0 * 3) r2
  pure (chain, groups, positions)

theorem readWord_u32Bytes (v : ℕ) (hv : v < 4294967296) (rest : List ℕ) :
    readWord (u32Bytes v ++ rest) = some (v, rest) := by
  have hsum : v % 256 + 256 * (v / 256 % 256) + 65536 * (v / 65536 % 256)
      + 16777216 * (v / 16777216 % 256) = v := by
    omega
  simp only [u32Bytes, List.cons_append, List.nil_append, readWord, hsum]

theorem readWords_flatMap (ws : List ℕ) (hvs : ∀ v ∈ ws, v < 4294967296)
    (rest : List ℕ) :
    readWords ws.length (ws.flatMap u32Bytes ++ rest) = some (ws, rest) := by
  induction ws with
  | nil => rfl
  | cons v tail ih =>
      have hv : v < 4294967296 := hvs v (List.mem_cons_self v tail)
      have htail : ∀ w ∈ tail, w < 4294967296 :=
        fun w hw => hvs w (List.mem_cons_of_mem v hw)
      simp only [List.flatMap_cons, List.append_assoc, List.length_cons,
        readWords, readWord_u32Bytes v hv, Option.bind_eq_bind,
        Option.some_bind, ih htail]
      rfl

/-- C7: writing a non-empty structure with the store and reading it back
yields exactly the original boundaries and coordinate words, with the residue
count derived as `count - 1` (bit-exact round-trip). -/
theorem store_round_trip (positions groups : List ℕ)
    (hg : groups ≠ [])
    (hcnt : groups.length < 2147483648)
    (hgv : ∀ v ∈ groups, v < 2147483648)
    (hpv : ∀ v ∈ positions, v < 4294967296)
    (hlen : positions.length = groups.getD (groups.length - 1) 0 * 3) :
    LoadAtomsFile (SaveAtomsFile positions groups)
      = some (groups.length - 1, groups, positions) := by
  have htake : positions.take (groups.getD (groups.length - 1) 0 * 3)
      = positions := by
    rw [← hlen]
    exact List.take_length positions
  unfold SaveAtomsFile LoadAtomsFile
  rw [htake, List.append_assoc,
    readWord_u32Bytes groups.length (by omega)
      (groups.flatMap u32Bytes ++ positions.flatMap u32Bytes)]
  simp only [Option.bind_eq_bind, Option.some_bind]
  rw [readWords_flatMap groups (fun v hv => by have := hgv v hv; omega)
    (positions.flatMap u32Bytes)]
  simp only [Option.some_bind]
  have hplen : positions.length = groups.getD (groups.length - 1) 0 * 3 := hlen
  rw [show positions.flatMap u32Bytes
        = positions.flatMap u32Bytes ++ [] from (List.append_nil _).symm,
    ← hplen, readWords_flatMap positions hpv []]
  rfl

/-- Witness for C7: one residue, one atom, boundaries `[0, 1]`, coordinate
words `[10, 20, 30]`. -/
theorem store_round_trip_witness :
    ([0, 1] : List ℕ) ≠ [] ∧
    ([0, 1] : List ℕ).length < 2147483648 ∧
    (∀ v ∈ ([0, 1] : List ℕ), v < 2147483648) ∧
    (∀ v ∈ ([10, 20, 30] : List ℕ), v < 4294967296) ∧
    ([10, 20, 30] : List ℕ).length
      = ([0, 1] : List ℕ).getD (([0, 1] : List ℕ).length - 1) 0 * 3 ∧
    LoadAtomsFile (SaveAtomsFile [10, 20, 30] [0, 1])
      = some (([0, 1] : List ℕ).length - 1, [0, 1], [10, 20, 30]) :=
  ⟨by decide, by decide, by decide, by decide, by decide,
    store_round_trip [10, 20, 30] [0, 1] (by decide) (by decide) (by decide)
      (by decide) (by decide)⟩

/-! ## Triangular bit-packing (bit_set.hpp, `ContactMapper::GenerateContactMap`) -/

/-- `bits_size` of `ContactMapper::GenerateContactMap` (line 33): size of the
strict upper triangle of an `n`-by-`n` matrix. -/
def bits_size (n : ℕ) : ℕ := n * (n - 1) / 2

/-- Subtracted row term `(seq_size - group_a) * ((seq_size - group_a) - 1) / 2`
of the `bit_index` expression (line 57). -/
def rowOffsetTerm (n a : ℕ) : ℕ := (n - a) * ((n - a) - 1) / 2

/-- Triangular bit index of the pair `(a, b)`, `a < b` (line 57):
`bits_size - (n-a)*((n-a)-1)/2 + b - a - 1`, evaluated left to right.  Over
the domain `a < b < n` every ℕ subtraction here is exact (the range theorem's
first conjunct shows the subtrahend never exceeds `bits_size`), so this agrees
with the C++ `int` evaluation. -/
def triangularIndex (n a b : ℕ) : ℕ :=
  bits_size n - rowOffsetTerm n a + b - a - 1

/-- Byte count allocated by `BitSet(N)` (bit_set.hpp lines 61-67): `N / 8`,
plus one more byte when `N % 8 > 0`. -/
def bitSetSize (N : ℕ) : ℕ := N / 8 + (if N % 8 > 0 then 1 else 0)

theorem half_mul_pred (m : ℕ) : 2 * (m * (m - 1) / 2) = m * (m - 1) := by
  have h : 2 ∣ m * (m - 1) := by
    rcases Nat.even_or_odd m with he | ho
    · exact he.two_dvd.mul_right (m - 1)
    · have he' : Even (m - 1) := Nat.Odd.sub_odd ho odd_one
      exact he'.two_dvd.mul_left m
  exact Nat.mul_div_cancel' h

theorem mul_pred_succ (m : ℕ) : (m + 1) * ((m + 1) - 1) = m * (m - 1) + 2 * m := by
  rcases m with _ | k
  · rfl
  · simp only [Nat.succ_sub_one]
    ring

theorem rowOffsetTerm_antitone (n : ℕ) {a a' : ℕ} (h : a ≤ a') :
    rowOffsetTerm n a' ≤ rowOffsetTerm n a :=
  Nat.div_le_div_right (Nat.mul_le_mul (by omega) (by omega))

theorem rowOffsetTerm_le_bits (n a : ℕ) : rowOffsetTerm n a ≤ bits_size n := by
  have h0 : bits_size n = rowOffsetTerm n 0 := rfl
  rw [h0]
  exact rowOffsetTerm_antitone n (Nat.zero_le a)

theorem rowOffsetTerm_step (n a : ℕ) (ha : a + 1 ≤ n) :
    rowOffsetTerm n a = rowOffsetTerm n (a + 1) + (n - a - 1) := by
  have h1 : 2 * rowOffsetTerm n a = (n - a) * ((n - a) - 1) :=
    half_mul_pred (n - a)
  have h2 : 2 * rowOffsetTerm n (a + 1) = (n - (a + 1)) * ((n - (a + 1)) - 1) :=
    half_mul_pred (n - (a + 1))
  have hprod : (n - a) * ((n - a) - 1)
      = (n - (a + 1)) * ((n - (a + 1)) - 1) + 2 * (n - a - 1) := by
    rw [show n - a = (n - (a + 1)) + 1 by omega, mul_pred_succ]
    rfl
  have hdouble : 2 * rowOffsetTerm n a
      = 2 * (rowOffsetTerm n (a + 1) + (n - a - 1)) := by
    calc 2 * rowOffsetTerm n a = (n - a) * ((n - a) - 1) := h1
      _ = (n - (a + 1)) * ((n - (a + 1)) - 1) + 2 * (n - a - 1) := hprod
      _ = 2 * rowOffsetTerm n (a + 1) + 2 * (n - a - 1) := by rw [h2]
      _ = 2 * (rowOffsetTerm n (a + 1) + (n - a - 1)) := by ring
  omega

/-- C9: for every side `n >= 2` and pair `a < b < n`, the subtracted row term
never exceeds `bits_size` (so the ℕ evaluation matches the `int` one), the
triangular index lands inside `[0, bits_size)`, the byte the `BitSet` touches
lies inside its allocation, and the indexing is injective on the strict upper
triangle. -/
theorem triangular_index_in_range_and_injective (n a b : ℕ)
    (hn : 2 ≤ n) (hab : a < b) (hb : b < n) :
    rowOffsetTerm n a ≤ bits_size n ∧
    triangularIndex n a b < bits_size n ∧
    triangularIndex n a b / 8 < bitSetSize (bits_size n) ∧
    ∀ a' b' : ℕ, a' < b' → b' < n →
      triangularIndex n a' b' = triangularIndex n a b → a' = a ∧ b' = b := by
  have hstep : rowOffsetTerm n a = rowOffsetTerm n (a + 1) + (n - a - 1) :=
    rowOffsetTerm_step n a (by omega)
  have hle : rowOffsetTerm n a ≤ bits_size n := rowOffsetTerm_le_bits n a
  have hle1 : rowOffsetTerm n (a + 1) ≤ bits_size n := rowOffsetTerm_le_bits n (a + 1)
  have hrange : triangularIndex n a b < bits_size n := by
    unfold triangularIndex
    omega
  have hbyte : triangularIndex n a b / 8 < bitSetSize (bits_size n) := by
    unfold bitSetSize
    split_ifs <;> omega
  refine ⟨hle, hrange, hbyte, ?_⟩
  intro a' b' hab' hb' heq
  have hstep' : rowOffsetTerm n a' = rowOffsetTerm n (a' + 1) + (n - a' - 1) :=
    rowOffsetTerm_step n a' (by omega)
  have hle' : rowOffsetTerm n a' ≤ bits_size n := rowOffsetTerm_le_bits n a'
  have hle1' : rowOffsetTerm n (a' + 1) ≤ bits_size n :=
    rowOffsetTerm_le_bits n (a' + 1)
  unfold triangularIndex at heq
  rcases Nat.lt_trichotomy a a' with hlt | heqa | hgt
  · have hmono : rowOffsetTerm n a' ≤ rowOffsetTerm n (a + 1) :=
      rowOffsetTerm_antitone n (by omega)
    omega
  · subst heqa
    omega
  · have hmono : rowOffsetTerm n a ≤ rowOffsetTerm n (a' + 1) :=
      rowOffsetTerm_antitone n (by omega)
    omega

/-- Witness for C9: `n = 4`, pair `(1, 3)`. -/
theorem triangular_index_in_range_and_injective_witness :
    (2 ≤ 4 ∧ 1 < 3 ∧ 3 < 4) ∧
    (rowOffsetTerm 4 1 ≤ bits_size 4 ∧
     triangularIndex 4 1 3 < bits_size 4 ∧
     triangularIndex 4 1 3 / 8 < bitSetSize (bits_size 4) ∧
     ∀ a' b' : ℕ, a' < b' → b' < 4 →
       triangularIndex 4 a' b' = triangularIndex 4 1 3 → a' = 1 ∧ b' = 3) :=
  ⟨⟨by decide, by decide, by decide⟩,
    triangular_index_in_range_and_injective 4 1 3 (by decide) (by decide)
      (by decide)⟩
